import Mathlib

/-!
A verification development for the ranking-pipeline core of the `milli`
full-text search engine: a shallow embedding of the query-tree resolver,
the pair-proximity resolver, the criteria builder skeleton
(`src/milli/src/search/criteria/mod.rs`) and the `StrStrU8Codec` key codec
(`src/src/heed_codec/str_str_u8_codec.rs`), together with theorems about
them.

Document-id bitmaps (`RoaringBitmap`) are modelled as `Finset ℕ`; database
reads that may miss are modelled as `Option (Finset ℕ)`; the one structural
failure (`bail!`) is modelled with `Except String`.
-/

namespace Milli

/-- Modelled from the spec: the query-term kind, `Exact(word)` or
`Tolerant(word, max_typos)` (the `query_tree` module is not part of the
provided sources; extra fields of `Exact` are never read by the resolver). -/
inductive QueryKind where
  | Exact (word : String)
  | Tolerant (typo : Nat) (word : String)
deriving DecidableEq, Repr

/-- Modelled from the spec: a leaf query, a word kind together with its
prefix flag (`pfx` stands for the source field `prefix`). -/
structure Query where
  pfx : Bool
  kind : QueryKind
deriving DecidableEq, Repr

/-- The query tree: `And`, `Consecutive`, `Or(dedup, ops)` and leaf
queries, as in `Operation` of the `query_tree` module. -/
inductive Operation where
  | And (ops : List Operation)
  | Consecutive (ops : List Operation)
  | Or (dedup : Bool) (ops : List Operation)
  | Query (q : Query)

/-- `true` exactly on leaf (`Query`) nodes. -/
def Operation.isLeaf : Operation → Bool
  | .Query _ => true
  | _ => false

/-- The index facade (trait `Context`).  Storage reads are modelled as
pure total functions; a missing entry is `none`.  `word_derivations` is
modelled from the spec: the word-derivations expansion
(`crate::search::word_derivations`, not among the provided sources) is an
abstract environment function from `(word, prefix_flag, max_typos)` to the
list of `(derived_word, typo_count)` pairs. -/
structure Context where
  documents_ids : Finset ℕ
  word_docids : String → Option (Finset ℕ)
  word_prefix_docids : String → Option (Finset ℕ)
  word_pair_proximity_docids : String → String → Nat → Option (Finset ℕ)
  word_prefix_pair_proximity_docids : String → String → Nat → Option (Finset ℕ)
  in_prefix_cache : String → Bool
  word_derivations : String → Bool → Nat → List (String × Nat)

/-- The union-accumulation loop shared by the derivation branches of
`query_docids`: union of the `word_docids` posting lists of a derivation
list, a missing list contributing the empty set. -/
def unionWordDocids (ctx : Context) (words : List (String × Nat)) : Finset ℕ :=
  words.foldl (fun docids wt => docids ∪ (ctx.word_docids wt.1).getD ∅) ∅

/-- `query_docids` (criteria/mod.rs lines 261-293): dispatch on the query
kind and prefix flag; missing posting lists yield the empty set
(`unwrap_or_default`), never an error. -/
def query_docids (ctx : Context) (query : Query) : Finset ℕ :=
  match query.kind with
  | .Exact word =>
    if query.pfx && ctx.in_prefix_cache word then
      (ctx.word_prefix_docids word).getD ∅
    else if query.pfx then
      unionWordDocids ctx (ctx.word_derivations word true 0)
    else
      (ctx.word_docids word).getD ∅
  | .Tolerant typo word =>
    unionWordDocids ctx (ctx.word_derivations word query.pfx typo)

/-- `all_word_pair_proximity_docids` (criteria/mod.rs lines 244-259):
cartesian union over the two derivation lists of the pair-proximity
posting lists, a missing list contributing the empty set. -/
def all_word_pair_proximity_docids (ctx : Context)
    (left_words right_words : List (String × Nat)) (proximity : Nat) : Finset ℕ :=
  left_words.foldl (fun docids lw =>
    right_words.foldl (fun docids rw =>
      docids ∪ (ctx.word_pair_proximity_docids lw.1 rw.1 proximity).getD ∅) docids) ∅

/-- `query_pair_proximity_docids` (criteria/mod.rs lines 295-348):
proximities of at least 8 collapse to the intersection of the two
single-query resolutions; below 8, dispatch on the two kinds and the
right query's prefix flag. -/
def query_pair_proximity_docids (ctx : Context) (left right : Query)
    (proximity : Nat) : Finset ℕ :=
  if 8 ≤ proximity then
    query_docids ctx left ∩ query_docids ctx right
  else
    match left.kind, right.kind with
    | .Exact lword, .Exact rword =>
      if right.pfx && ctx.in_prefix_cache rword then
        (ctx.word_prefix_pair_proximity_docids lword rword proximity).getD ∅
      else if right.pfx then
        all_word_pair_proximity_docids ctx [(lword, 0)]
          (ctx.word_derivations rword true 0) proximity
      else
        (ctx.word_pair_proximity_docids lword rword proximity).getD ∅
    | .Tolerant typo lword, .Exact rword =>
      let l_words := ctx.word_derivations lword false typo
      if right.pfx && ctx.in_prefix_cache rword then
        l_words.foldl (fun docids lw =>
          docids ∪ (ctx.word_prefix_pair_proximity_docids lw.1 rword proximity).getD ∅) ∅
      else if right.pfx then
        all_word_pair_proximity_docids ctx l_words
          (ctx.word_derivations rword true 0) proximity
      else
        all_word_pair_proximity_docids ctx l_words [(rword, 0)] proximity
    | .Exact lword, .Tolerant typo rword =>
      all_word_pair_proximity_docids ctx [(lword, 0)]
        (ctx.word_derivations rword right.pfx typo) proximity
    | .Tolerant ltypo lword, .Tolerant rtypo rword =>
      all_word_pair_proximity_docids ctx (ctx.word_derivations lword false ltypo)
        (ctx.word_derivations rword right.pfx rtypo) proximity

/-- The `And` fold of `resolve_operation`: `candidates` starts empty, the
first child bitmap replaces it, subsequent ones intersect into it. -/
def interFold : List (Finset ℕ) → Finset ℕ
  | [] => ∅
  | d :: ds => ds.foldl (· ∩ ·) d

/-- The `Consecutive` loop of `resolve_operation` over `ops.windows(2)`:
each adjacent pair must be two leaves (otherwise the structural
`bail!`), an empty pair bitmap returns the empty set at once, and the
first pair bitmap seeds the running intersection. -/
def consecAux (ctx : Context) :
    List Operation → Bool → Finset ℕ → Except String (Finset ℕ)
  | a :: rest, first_loop, candidates =>
    match rest with
    | [] => Except.ok candidates
    | b :: _ =>
      match a, b with
      | .Query lq, .Query rq =>
        let pair_docids := query_pair_proximity_docids ctx lq rq 1
        if pair_docids = ∅ then
          Except.ok ∅
        else if first_loop then
          consecAux ctx rest false pair_docids
        else
          consecAux ctx rest false (candidates ∩ pair_docids)
      | _, _ => Except.error "invalid consecutive query type"
  | [], _, candidates => Except.ok candidates

mutual

/-- `resolve_operation` (criteria/mod.rs lines 175-238), the body of
`resolve_query_tree`: `And` resolves all children, sorts the bitmaps by
ascending cardinality and intersects; `Consecutive` runs the adjacent-pair
loop; `Or` unions the children; a leaf dispatches to `query_docids`.
(The resolver cache only memoizes and is dropped from the model.) -/
def resolve_operation (ctx : Context) : Operation → Except String (Finset ℕ)
  | .And ops => do
    let rs ← resolveList ctx ops
    Except.ok (interFold (List.insertionSort (fun a b : Finset ℕ => a.card ≤ b.card) rs))
  | .Consecutive ops => consecAux ctx ops true ∅
  | .Or _ ops => orList ctx ops ∅
  | .Query q => Except.ok (query_docids ctx q)

/-- The child-resolution collection of the `And` arm
(`ops.iter().map(resolve).collect::<Result<Vec<_>>>()`). -/
def resolveList (ctx : Context) : List Operation → Except String (List (Finset ℕ))
  | [] => Except.ok []
  | op :: ops => do
    let r ← resolve_operation ctx op
    let rs ← resolveList ctx ops
    Except.ok (r :: rs)

/-- The child-union loop of the `Or` arm. -/
def orList (ctx : Context) : List Operation → Finset ℕ → Except String (Finset ℕ)
  | [], candidates => Except.ok candidates
  | op :: ops, candidates => do
    let docids ← resolve_operation ctx op
    orList ctx ops (candidates ∪ docids)

end

/-- The adjacent pairs of a list, `l.windows(2)` as a list of pairs. -/
def adjacent {α : Type} : List α → List (α × α)
  | a :: rest =>
    match rest with
    | [] => []
    | b :: _ => (a, b) :: adjacent rest
  | [] => []

/-- Modelled from the spec: the configured criterion-name enum
(`crate::criterion::Criterion`, not among the provided sources).  The
recognized names are `Typo`, `Words`, `Proximity`, `Asc(field)` and
`Desc(field)`; every other configured name is modelled by the catch-all
`Other` constructor (the `_otherwise` arms of `CriteriaBuilder::build`). -/
inductive Name where
  | Typo
  | Words
  | Proximity
  | Asc (field : String)
  | Desc (field : String)
  | Other (s : String)
deriving DecidableEq, Repr

/-- The criterion kinds a built pipeline stage can carry (the boxed
criterion constructors of `CriteriaBuilder::build` are outside the
provided sources, so a stage only records which criterion it is). -/
inductive Crit where
  | typo
  | words
  | proximity
  | asc (field : String)
  | desc (field : String)
deriving DecidableEq, Repr

/-- Which names `CriteriaBuilder::build` recognizes, and the criterion
each one builds; `none` for the `_otherwise` arms. -/
def recognized : Name → Option Crit
  | .Typo => some .typo
  | .Words => some .words
  | .Proximity => some .proximity
  | .Asc field => some (.asc field)
  | .Desc field => some (.desc field)
  | .Other _ => none

/-- The criterion stack assembled by `CriteriaBuilder::build`: the initial
criterion holds the seed query tree and candidate pool; every later stage
wraps its father. -/
inductive CriterionStack where
  | initial (c : Crit) (query_tree : Option Operation) (candidates : Option (Finset ℕ))
  | wrap (c : Crit) (father : CriterionStack)

/-- One iteration of the name loop of `CriteriaBuilder::build` (criteria/mod.rs
lines 136-159): with a father present, a recognized name wraps it and an
unrecognized one passes it through; with no criterion yet, a recognized
name becomes the initial criterion seeded with the query tree and the
facet candidates, and an unrecognized one is skipped (`continue`). -/
def buildStep (query_tree : Option Operation) (facet_candidates : Option (Finset ℕ))
    (acc : Option CriterionStack) (name : Name) : Option CriterionStack :=
  match acc with
  | some father =>
    match recognized name with
    | some c => some (.wrap c father)
    | none => some father
  | none =>
    match recognized name with
    | some c => some (.initial c query_tree facet_candidates)
    | none => none

/-- The name loop of `CriteriaBuilder::build` over the configured
criterion list. -/
def buildCriteria (names : List Name) (query_tree : Option Operation)
    (facet_candidates : Option (Finset ℕ)) : Option CriterionStack :=
  names.foldl (buildStep query_tree facet_candidates) none

/-- The fetcher handed back by `CriteriaBuilder::build`: either driving
the built criterion stack, or the initial fetcher over the untouched seed
when no criterion was built. -/
inductive FetcherKind where
  | ofCriterion (c : CriterionStack)
  | initialSeed (query_tree : Option Operation) (candidates : Option (Finset ℕ))

/-- `CriteriaBuilder::build` (criteria/mod.rs lines 127-165). -/
def build (names : List Name) (query_tree : Option Operation)
    (facet_candidates : Option (Finset ℕ)) : FetcherKind :=
  match buildCriteria names query_tree facet_candidates with
  | some c => .ofCriterion c
  | none => .initialSeed query_tree facet_candidates

namespace StrStrU8Codec

/-- A UTF-8 continuation byte, `0x80 ..= 0xBF`. -/
def isUtf8Cont (b : Nat) : Bool :=
  0x80 ≤ b && b ≤ 0xBF

/-- UTF-8 validity of a byte sequence (the check performed by
`str::from_utf8`), following RFC 3629: ASCII bytes stand alone; leading
bytes `C2-DF`, `E0-EF` and `F0-F4` take one, two and three continuation
bytes, with the narrowed first-continuation ranges for `E0`, `ED`, `F0`
and `F4` that exclude overlong forms and surrogates. -/
def isValidUtf8 : List Nat → Bool
  | [] => true
  | b :: rest =>
    if b ≤ 0x7F then isValidUtf8 rest
    else if 0xC2 ≤ b && b ≤ 0xDF then
      match rest with
      | c :: rest2 => isUtf8Cont c && isValidUtf8 rest2
      | [] => false
    else if b = 0xE0 then
      match rest with
      | c1 :: c2 :: rest2 =>
        (0xA0 ≤ c1 && c1 ≤ 0xBF) && isUtf8Cont c2 && isValidUtf8 rest2
      | _ => false
    else if b = 0xED then
      match rest with
      | c1 :: c2 :: rest2 =>
        (0x80 ≤ c1 && c1 ≤ 0x9F) && isUtf8Cont c2 && isValidUtf8 rest2
      | _ => false
    else if 0xE1 ≤ b && b ≤ 0xEF then
      match rest with
      | c1 :: c2 :: rest2 =>
        isUtf8Cont c1 && isUtf8Cont c2 && isValidUtf8 rest2
      | _ => false
    else if b = 0xF0 then
      match rest with
      | c1 :: c2 :: c3 :: rest2 =>
        (0x90 ≤ c1 && c1 ≤ 0xBF) && isUtf8Cont c2 && isUtf8Cont c3 && isValidUtf8 rest2
      | _ => false
    else if 0xF1 ≤ b && b ≤ 0xF3 then
      match rest with
      | c1 :: c2 :: c3 :: rest2 =>
        isUtf8Cont c1 && isUtf8Cont c2 && isUtf8Cont c3 && isValidUtf8 rest2
      | _ => false
    else if b = 0xF4 then
      match rest with
      | c1 :: c2 :: c3 :: rest2 =>
        (0x80 ≤ c1 && c1 ≤ 0x8F) && isUtf8Cont c2 && isUtf8Cont c3 && isValidUtf8 rest2
      | _ => false
    else false

/-- `str::from_utf8` on a byte slice: the same bytes, viewed as a string,
when they are valid UTF-8; `none` otherwise. -/
def fromUtf8 (bytes : List Nat) : Option (List Nat) :=
  if isValidUtf8 bytes then some bytes else none

/-- `StrStrU8Codec::bytes_encode` (str_str_u8_codec.rs lines 22-29): the
bytes of `s1`, a `0x00` separator, the bytes of `s2`, then the byte `n`. -/
def bytes_encode (s1 s2 : List Nat) (n : Nat) : Option (List Nat) :=
  let bytes : List Nat := []
  let bytes := bytes ++ s1
  let bytes := bytes.concat 0
  let bytes := bytes ++ s2
  let bytes := bytes.concat n
  some bytes

/-- `StrStrU8Codec::bytes_decode` (str_str_u8_codec.rs lines 9-16):
split off the trailing proximity byte, split the remainder at the first
`0x00`, and check both halves for UTF-8 validity. -/
def bytes_decode (bytes : List Nat) : Option (List Nat × List Nat × Nat) := do
  let n ← bytes.getLast?
  let bytes := bytes.dropLast
  let s1_end ← bytes.findIdx? (fun b => b == 0)
  let s1_bytes := bytes.take s1_end
  let s2_bytes := bytes.drop s1_end
  let s1 ← fromUtf8 s1_bytes
  let s2 ← fromUtf8 (s2_bytes.drop 1)
  some (s1, s2, n)

end StrStrU8Codec

/-- A concrete index facade used to instantiate the theorems: a small
fixture in the style of the repository's `TestContext`. -/
def ctxEx : Context where
  documents_ids := {1, 2, 3, 4, 5}
  word_docids := fun w =>
    if w = "hello" then some {1, 2, 3}
    else if w = "world" then some {2, 3, 4}
    else if w = "word" then some {3, 5}
    else none
  word_prefix_docids := fun w => if w = "wor" then some {2, 3, 4, 5} else none
  word_pair_proximity_docids := fun l r p =>
    if l = "hello" ∧ r = "world" ∧ p = 1 then some {2, 3} else none
  word_prefix_pair_proximity_docids := fun l r p =>
    if l = "hello" ∧ r = "wor" ∧ p = 1 then some {2, 3, 5} else none
  in_prefix_cache := fun w => w == "wor"
  word_derivations := fun w pfx _t =>
    if w = "wor" ∧ pfx then [("word", 0), ("world", 0)] else [(w, 0)]

/-- The leaf `Exact "hello"` without prefix. -/
def qHello : Query := ⟨false, .Exact "hello"⟩

/-- The leaf `Exact "world"` without prefix. -/
def qWorld : Query := ⟨false, .Exact "world"⟩

/-- The leaf `Exact "wor"` with the prefix flag set. -/
def qWor : Query := ⟨true, .Exact "wor"⟩

theorem mem_foldl_inter (x : ℕ) (ds : List (Finset ℕ)) (d : Finset ℕ) :
    x ∈ ds.foldl (· ∩ ·) d ↔ x ∈ d ∧ ∀ s ∈ ds, x ∈ s := by
  induction ds generalizing d with
  | nil => simp
  | cons e ds ih =>
    simp only [List.foldl_cons, ih, Finset.mem_inter, List.mem_cons]
    constructor
    · rintro ⟨⟨hd, he⟩, hall⟩
      exact ⟨hd, fun s hs => hs.elim (fun h => h ▸ he) (hall s)⟩
    · rintro ⟨hd, hall⟩
      exact ⟨⟨hd, hall e (Or.inl rfl)⟩, fun s hs => hall s (Or.inr hs)⟩

theorem mem_foldl_union_map {α : Type} (g : α → Finset ℕ) (x : ℕ) (l : List α)
    (init : Finset ℕ) :
    x ∈ l.foldl (fun d a => d ∪ g a) init ↔ x ∈ init ∨ ∃ a ∈ l, x ∈ g a := by
  induction l generalizing init with
  | nil => simp
  | cons e l ih =>
    simp only [List.foldl_cons, ih, Finset.mem_union, List.mem_cons]
    constructor
    · rintro (⟨h | h⟩ | ⟨a, ha, hx⟩)
      · exact Or.inl h
      · exact Or.inr ⟨e, Or.inl rfl, h⟩
      · exact Or.inr ⟨a, Or.inr ha, hx⟩
    · rintro (h | ⟨a, rfl | ha, hx⟩)
      · exact Or.inl (Or.inl h)
      · exact Or.inl (Or.inr hx)
      · exact Or.inr ⟨a, ha, hx⟩

theorem mem_interFold (x : ℕ) (l : List (Finset ℕ)) (h : l ≠ []) :
    x ∈ interFold l ↔ ∀ s ∈ l, x ∈ s := by
  cases l with
  | nil => exact absurd rfl h
  | cons d ds =>
    simp only [interFold, mem_foldl_inter, List.mem_cons]
    constructor
    · rintro ⟨hd, hall⟩ s (rfl | hs)
      · exact hd
      · exact hall s hs
    · intro hall
      exact ⟨hall d (Or.inl rfl), fun s hs => hall s (Or.inr hs)⟩

theorem interFold_perm {l l2 : List (Finset ℕ)} (h : l.Perm l2) :
    interFold l = interFold l2 := by
  cases l with
  | nil =>
    have : l2 = [] := h.nil_eq.symm
    rw [this]
  | cons d ds =>
    have hne : (d :: ds) ≠ [] := by simp
    have hne2 : l2 ≠ [] := by
      intro he
      rw [he] at h
      exact hne h.eq_nil
    ext x
    rw [mem_interFold x _ hne, mem_interFold x _ hne2]
    constructor
    · intro hall s hs
      exact hall s (h.mem_iff.mpr hs)
    · intro hall s hs
      exact hall s (h.mem_iff.mp hs)

theorem resolveList_eq_map (ctx : Context) (ops : List Operation)
    (f : Operation → Finset ℕ)
    (hall : ∀ op ∈ ops, resolve_operation ctx op = .ok (f op)) :
    resolveList ctx ops = .ok (ops.map f) := by
  induction ops with
  | nil => rfl
  | cons op ops ih =>
    have h1 : resolve_operation ctx op = .ok (f op) := hall op (by simp)
    have h2 : resolveList ctx ops = .ok (ops.map f) :=
      ih (fun o ho => hall o (by simp [ho]))
    simp [resolveList, h1, h2, Bind.bind, Except.bind]

theorem orList_eq (ctx : Context) (ops : List Operation) (f : Operation → Finset ℕ)
    (hall : ∀ op ∈ ops, resolve_operation ctx op = .ok (f op)) :
    ∀ acc, orList ctx ops acc = .ok (ops.foldl (fun d op => d ∪ f op) acc) := by
  induction ops with
  | nil => intro acc; rfl
  | cons op ops ih =>
    intro acc
    have h1 : resolve_operation ctx op = .ok (f op) := hall op (by simp)
    have h2 := ih (fun o ho => hall o (by simp [ho])) (acc ∪ f op)
    simp [orList, h1, h2, Bind.bind, Except.bind]

/-- C2: for every pair of queries and every proximity `p` with
`8 ≤ p ≤ 255`, `query_pair_proximity_docids` returns exactly the
intersection of the two single-query resolutions, regardless of the kinds
and prefix flags of the two queries. -/
theorem pair_proximity_collapse (ctx : Context) (left right : Query) (p : Nat)
    (h8 : 8 ≤ p) (h255 : p ≤ 255) :
    query_pair_proximity_docids ctx left right p =
      query_docids ctx left ∩ query_docids ctx right := by
  unfold query_pair_proximity_docids
  rw [if_pos h8]

/-- Witness for `pair_proximity_collapse` at proximity 8 on the concrete
fixture. -/
theorem pair_proximity_collapse_witness :
    query_pair_proximity_docids ctxEx qHello qWorld 8 =
      query_docids ctxEx qHello ∩ query_docids ctxEx qWorld :=
  pair_proximity_collapse ctxEx qHello qWorld 8 (by decide) (by decide)

/-- C5: `query_docids` dispatches on the query kind and prefix flag: a
non-prefix `Exact` word is a direct posting lookup (empty when missing);
a prefix `Exact` word in the prefix cache is the precomputed prefix
posting list (the cache test deciding the branch); a prefix `Exact` word
outside the cache is the union over its typo-0 prefix derivations; a
`Tolerant` word is the union over its derivations honoring the query's
prefix flag.  Missing posting lists yield the empty set, never an error
(`query_docids` is total into bitmaps). -/
theorem query_docids_dispatch (ctx : Context) (q : Query) (w : String) (t : Nat) :
    (q.kind = .Exact w → q.pfx = false →
      query_docids ctx q = (ctx.word_docids w).getD ∅)
  ∧ (q.kind = .Exact w → q.pfx = true → ctx.in_prefix_cache w = true →
      query_docids ctx q = (ctx.word_prefix_docids w).getD ∅)
  ∧ (q.kind = .Exact w → q.pfx = true → ctx.in_prefix_cache w = false →
      query_docids ctx q = unionWordDocids ctx (ctx.word_derivations w true 0))
  ∧ (q.kind = .Tolerant t w →
      query_docids ctx q = unionWordDocids ctx (ctx.word_derivations w q.pfx t)) := by
  obtain ⟨pfx, kind⟩ := q
  refine ⟨?_, ?_, ?_, ?_⟩
  · rintro rfl rfl
    rfl
  · rintro rfl rfl hc
    simp [query_docids, hc]
  · rintro rfl rfl hc
    simp [query_docids, hc]
  · rintro rfl
    rfl

/-- Witness for `query_docids_dispatch` on the concrete fixture: the
non-prefix exact branch and the cached prefix branch, among others, are
exercised by `qHello` and `qWor`. -/
theorem query_docids_dispatch_witness :
    ((qHello.kind = .Exact "hello" → qHello.pfx = false →
      query_docids ctxEx qHello = (ctxEx.word_docids "hello").getD ∅)
  ∧ (qHello.kind = .Exact "hello" → qHello.pfx = true →
      ctxEx.in_prefix_cache "hello" = true →
      query_docids ctxEx qHello = (ctxEx.word_prefix_docids "hello").getD ∅)
  ∧ (qHello.kind = .Exact "hello" → qHello.pfx = true →
      ctxEx.in_prefix_cache "hello" = false →
      query_docids ctxEx qHello =
        unionWordDocids ctxEx (ctxEx.word_derivations "hello" true 0))
  ∧ (qHello.kind = .Tolerant 1 "hello" →
      query_docids ctxEx qHello =
        unionWordDocids ctxEx (ctxEx.word_derivations "hello" qHello.pfx 1)))
  ∧ ((qWor.kind = .Exact "wor" → qWor.pfx = false →
      query_docids ctxEx qWor = (ctxEx.word_docids "wor").getD ∅)
  ∧ (qWor.kind = .Exact "wor" → qWor.pfx = true →
      ctxEx.in_prefix_cache "wor" = true →
      query_docids ctxEx qWor = (ctxEx.word_prefix_docids "wor").getD ∅)
  ∧ (qWor.kind = .Exact "wor" → qWor.pfx = true →
      ctxEx.in_prefix_cache "wor" = false →
      query_docids ctxEx qWor =
        unionWordDocids ctxEx (ctxEx.word_derivations "wor" true 0))
  ∧ (qWor.kind = .Tolerant 1 "wor" →
      query_docids ctxEx qWor =
        unionWordDocids ctxEx (ctxEx.word_derivations "wor" qWor.pfx 1))) :=
  ⟨query_docids_dispatch ctxEx qHello "hello" 1,
   query_docids_dispatch ctxEx qWor "wor" 1⟩

/-- C10: a `Consecutive` node with fewer than two children resolves to
the empty bitmap and never errors, whatever the shape of the sole child:
the adjacent-pair loop only examines windows of two children. -/
theorem consecutive_short_ok_empty (ctx : Context) (ops : List Operation)
    (h : ops.length < 2) :
    resolve_operation ctx (.Consecutive ops) = .ok ∅ := by
  cases ops with
  | nil => rfl
  | cons x rest =>
    cases rest with
    | nil => rfl
    | cons y rest2 => simp at h; omega

/-- Witness for `consecutive_short_ok_empty`: a single-child `Consecutive`
whose sole child is the non-leaf `And []` still resolves to the empty
bitmap without error. -/
theorem consecutive_short_ok_empty_witness :
    resolve_operation ctxEx (.Consecutive [.And []]) = .ok ∅ :=
  consecutive_short_ok_empty ctxEx [.And []] (by decide)

theorem mem_all_word_pair (ctx : Context) (L R : List (String × Nat)) (p : Nat)
    (x : ℕ) :
    x ∈ all_word_pair_proximity_docids ctx L R p ↔
      ∃ lp ∈ L, ∃ rp ∈ R, x ∈ (ctx.word_pair_proximity_docids lp.1 rp.1 p).getD ∅ := by
  unfold all_word_pair_proximity_docids
  suffices h : ∀ init : Finset ℕ,
      x ∈ L.foldl (fun docids lw =>
        R.foldl (fun docids rw =>
          docids ∪ (ctx.word_pair_proximity_docids lw.1 rw.1 p).getD ∅) docids) init ↔
      x ∈ init ∨ ∃ lp ∈ L, ∃ rp ∈ R,
        x ∈ (ctx.word_pair_proximity_docids lp.1 rp.1 p).getD ∅ by
    simpa using h ∅
  intro init
  induction L generalizing init with
  | nil => simp
  | cons a L ih =>
    simp only [List.foldl_cons, ih, List.mem_cons,
      mem_foldl_union_map (fun rw => (ctx.word_pair_proximity_docids a.1 rw.1 p).getD ∅) x R init]
    constructor
    · rintro ((h | ⟨rp, hrp, hx⟩) | ⟨lp, hlp, rp, hrp, hx⟩)
      · exact Or.inl h
      · exact Or.inr ⟨a, Or.inl rfl, rp, hrp, hx⟩
      · exact Or.inr ⟨lp, Or.inr hlp, rp, hrp, hx⟩
    · rintro (h | ⟨lp, rfl | hlp, rp, hrp, hx⟩)
      · exact Or.inl (Or.inl h)
      · exact Or.inl (Or.inr ⟨rp, hrp, hx⟩)
      · exact Or.inr ⟨lp, hlp, rp, hrp, hx⟩

/-- C6: below proximity 8, an `Exact`/`Exact` pair dispatches on the
right query's prefix flag: a cached prefix uses the precomputed
prefix-pair posting list; an uncached prefix takes the cartesian union of
the left word against the typo-0 prefix derivations of the right word; no
prefix is a direct pair lookup (empty when missing).  The cartesian union
over derivation lists `L` and `R` is exactly the union over all pairs of
their pair posting lists, missing lists contributing the empty set. -/
theorem pair_proximity_exact_exact (ctx : Context) (l r : Query)
    (lw rw : String) (p : Nat) (hp : p < 8)
    (hl : l.kind = .Exact lw) (hr : r.kind = .Exact rw)
    (L R : List (String × Nat)) (x : ℕ) :
    (r.pfx = true → ctx.in_prefix_cache rw = true →
      query_pair_proximity_docids ctx l r p =
        (ctx.word_prefix_pair_proximity_docids lw rw p).getD ∅)
  ∧ (r.pfx = true → ctx.in_prefix_cache rw = false →
      query_pair_proximity_docids ctx l r p =
        all_word_pair_proximity_docids ctx [(lw, 0)]
          (ctx.word_derivations rw true 0) p)
  ∧ (r.pfx = false →
      query_pair_proximity_docids ctx l r p =
        (ctx.word_pair_proximity_docids lw rw p).getD ∅)
  ∧ (x ∈ all_word_pair_proximity_docids ctx L R p ↔
      ∃ lp ∈ L, ∃ rp ∈ R, x ∈ (ctx.word_pair_proximity_docids lp.1 rp.1 p).getD ∅) := by
  have h8 : ¬ 8 ≤ p := by omega
  refine ⟨?_, ?_, ?_, mem_all_word_pair ctx L R p x⟩
  · intro hpfx hc
    simp [query_pair_proximity_docids, h8, hl, hr, hpfx, hc]
  · intro hpfx hc
    simp [query_pair_proximity_docids, h8, hl, hr, hpfx, hc]
  · intro hpfx
    simp [query_pair_proximity_docids, h8, hl, hr, hpfx]

/-- Witness for `pair_proximity_exact_exact` at proximity 1 on the
concrete fixture, with the prefix leaf `qWor` on the right. -/
theorem pair_proximity_exact_exact_witness :
    ((qWor.pfx = true → ctxEx.in_prefix_cache "wor" = true →
      query_pair_proximity_docids ctxEx qHello qWor 1 =
        (ctxEx.word_prefix_pair_proximity_docids "hello" "wor" 1).getD ∅)
  ∧ (qWor.pfx = true → ctxEx.in_prefix_cache "wor" = false →
      query_pair_proximity_docids ctxEx qHello qWor 1 =
        all_word_pair_proximity_docids ctxEx [("hello", 0)]
          (ctxEx.word_derivations "wor" true 0) 1)
  ∧ (qWor.pfx = false →
      query_pair_proximity_docids ctxEx qHello qWor 1 =
        (ctxEx.word_pair_proximity_docids "hello" "wor" 1).getD ∅)
  ∧ (3 ∈ all_word_pair_proximity_docids ctxEx [("hello", 0)] [("world", 0)] 1 ↔
      ∃ lp ∈ [("hello", 0)], ∃ rp ∈ [("world", 0)],
        3 ∈ (ctxEx.word_pair_proximity_docids lp.1 rp.1 1).getD ∅)) :=
  pair_proximity_exact_exact ctxEx qHello qWor "hello" "wor" 1 (by decide)
    rfl rfl [("hello", 0)] [("world", 0)] 3

/-- C7 counterexample: the query tree `Consecutive [And []]` contains a
`Consecutive` node with a non-leaf child, yet resolution returns the
empty bitmap, not an error: the adjacent-pair loop never inspects a sole
child. -/
theorem consecutive_nonleaf_counterexample :
    (Operation.And []).isLeaf = false
  ∧ resolve_operation ctxEx (.Consecutive [.And []]) = .ok ∅ :=
  ⟨rfl, rfl⟩

/-- C7 amended: a `Consecutive` node one of whose first two children is a
non-leaf resolves to the fatal structural error
"invalid consecutive query type"; a non-leaf can escape the error only
when it sits outside every adjacent window examined before the loop
returns (in particular a `Consecutive` with fewer than two children never
errors). -/
theorem consecutive_nonleaf_head_error (ctx : Context) (x y : Operation)
    (rest : List Operation)
    (h : x.isLeaf = false ∨ y.isLeaf = false) :
    resolve_operation ctx (.Consecutive (x :: y :: rest)) =
      .error "invalid consecutive query type" := by
  cases x with
  | Query qx =>
    cases y with
    | Query qy => simp [Operation.isLeaf] at h
    | And ops => rfl
    | Consecutive ops => rfl
    | Or d ops => rfl
  | And ops => cases y <;> rfl
  | Consecutive ops => cases y <;> rfl
  | Or d ops => cases y <;> rfl

/-- Witness for `consecutive_nonleaf_head_error`: a non-leaf first child
next to a leaf makes resolution fail with the structural error. -/
theorem consecutive_nonleaf_head_error_witness :
    resolve_operation ctxEx (.Consecutive [.And [], .Query qHello]) =
      .error "invalid consecutive query type" :=
  consecutive_nonleaf_head_error ctxEx (.And []) (.Query qHello) []
    (Or.inl rfl)

theorem foldl_inter_empty_init (P : List (Finset ℕ)) :
    P.foldl (· ∩ ·) ∅ = ∅ := by
  ext x
  rw [mem_foldl_inter]
  simp

theorem consecAux_leaves_false (ctx : Context) (qs : List Query) :
    ∀ cand, consecAux ctx (qs.map Operation.Query) false cand =
      .ok (((adjacent qs).map
        (fun lr => query_pair_proximity_docids ctx lr.1 lr.2 1)).foldl (· ∩ ·) cand) := by
  induction qs with
  | nil => intro cand; rfl
  | cons q1 qs ih =>
    intro cand
    cases qs with
    | nil => rfl
    | cons q2 rest =>
      have hadj : adjacent (q1 :: q2 :: rest) = (q1, q2) :: adjacent (q2 :: rest) := rfl
      by_cases hp : query_pair_proximity_docids ctx q1 q2 1 = ∅
      · have hL : consecAux ctx ((q1 :: q2 :: rest).map Operation.Query) false cand =
            .ok ∅ := by
          simp [consecAux, hp]
        rw [hL, hadj, List.map_cons, List.foldl_cons, hp, Finset.inter_empty,
          foldl_inter_empty_init]
      · have hL : consecAux ctx ((q1 :: q2 :: rest).map Operation.Query) false cand =
            consecAux ctx ((q2 :: rest).map Operation.Query) false
              (cand ∩ query_pair_proximity_docids ctx q1 q2 1) := by
          simp [consecAux, hp]
        rw [hL, ih, hadj, List.map_cons, List.foldl_cons]

theorem consecAux_leaves_true (ctx : Context) (q1 q2 : Query) (rest : List Query) :
    consecAux ctx ((q1 :: q2 :: rest).map Operation.Query) true ∅ =
      .ok (interFold ((adjacent (q1 :: q2 :: rest)).map
        (fun lr => query_pair_proximity_docids ctx lr.1 lr.2 1))) := by
  have hadj : adjacent (q1 :: q2 :: rest) = (q1, q2) :: adjacent (q2 :: rest) := rfl
  by_cases hp : query_pair_proximity_docids ctx q1 q2 1 = ∅
  · have hL : consecAux ctx ((q1 :: q2 :: rest).map Operation.Query) true ∅ =
        .ok ∅ := by
      simp [consecAux, hp]
    rw [hL, hadj, List.map_cons]
    have hR : interFold (query_pair_proximity_docids ctx q1 q2 1 ::
        (adjacent (q2 :: rest)).map
          (fun lr => query_pair_proximity_docids ctx lr.1 lr.2 1)) = ∅ := by
      show ((adjacent (q2 :: rest)).map
        (fun lr => query_pair_proximity_docids ctx lr.1 lr.2 1)).foldl (· ∩ ·)
          (query_pair_proximity_docids ctx q1 q2 1) = ∅
      rw [hp, foldl_inter_empty_init]
    rw [hR]
  · have hL : consecAux ctx ((q1 :: q2 :: rest).map Operation.Query) true ∅ =
        consecAux ctx ((q2 :: rest).map Operation.Query) false
          (query_pair_proximity_docids ctx q1 q2 1) := by
      simp [consecAux, hp]
    rw [hL, consecAux_leaves_false, hadj, List.map_cons]
    rfl

/-- C1: a `Consecutive` of exactly two leaves resolves to their
distance-1 pair-proximity bitmap; more generally, a `Consecutive` of at
least two leaves resolves to the empty bitmap when some adjacent pair's
distance-1 bitmap is empty, and otherwise to the intersection of all
adjacent-pair distance-1 bitmaps. -/
theorem consecutive_leaves_spec (ctx : Context) (a b : Query) (qs : List Query)
    (h2 : 2 ≤ qs.length) :
    resolve_operation ctx (.Consecutive [.Query a, .Query b]) =
      .ok (query_pair_proximity_docids ctx a b 1)
  ∧ resolve_operation ctx (.Consecutive (qs.map Operation.Query)) =
      .ok (if (∅ : Finset ℕ) ∈ (adjacent qs).map
            (fun lr => query_pair_proximity_docids ctx lr.1 lr.2 1)
          then ∅
          else interFold ((adjacent qs).map
            (fun lr => query_pair_proximity_docids ctx lr.1 lr.2 1))) := by
  constructor
  · show consecAux ctx [.Query a, .Query b] true ∅ = _
    by_cases hp : query_pair_proximity_docids ctx a b 1 = ∅
    · simp [consecAux, hp]
    · simp [consecAux, hp]
  · obtain ⟨q1, qs1⟩ : ∃ q1 qs1, qs = q1 :: qs1 := by
      cases qs with
      | nil => simp at h2
      | cons q1 qs1 => exact ⟨q1, qs1, rfl⟩
    obtain ⟨qs1, rfl⟩ := qs1
    obtain ⟨q2, rest, rfl⟩ : ∃ q2 rest, qs1 = q2 :: rest := by
      cases qs1 with
      | nil => simp at h2
      | cons q2 rest => exact ⟨q2, rest, rfl⟩
    have hres : resolve_operation ctx (.Consecutive ((q1 :: q2 :: rest).map Operation.Query)) =
        consecAux ctx ((q1 :: q2 :: rest).map Operation.Query) true ∅ := rfl
    rw [hres, consecAux_leaves_true]
    have hne : (adjacent (q1 :: q2 :: rest)).map
        (fun lr => query_pair_proximity_docids ctx lr.1 lr.2 1) ≠ [] := by
      simp [adjacent]
    by_cases hmem : (∅ : Finset ℕ) ∈ (adjacent (q1 :: q2 :: rest)).map
        (fun lr => query_pair_proximity_docids ctx lr.1 lr.2 1)
    · rw [if_pos hmem]
      have : interFold ((adjacent (q1 :: q2 :: rest)).map
          (fun lr => query_pair_proximity_docids ctx lr.1 lr.2 1)) = ∅ := by
        ext x
        rw [mem_interFold x _ hne]
        simp only [Finset.not_mem_empty, iff_false, not_forall]
        exact ⟨∅, hmem, by simp⟩
      rw [this]
    · rw [if_neg hmem]

/-- Witness for `consecutive_leaves_spec` on the two-leaf list
`[qHello, qWorld]` of the concrete fixture. -/
theorem consecutive_leaves_spec_witness :
    resolve_operation ctxEx (.Consecutive [.Query qHello, .Query qWorld]) =
      .ok (query_pair_proximity_docids ctxEx qHello qWorld 1)
  ∧ resolve_operation ctxEx (.Consecutive ([qHello, qWorld].map Operation.Query)) =
      .ok (if (∅ : Finset ℕ) ∈ (adjacent [qHello, qWorld]).map
            (fun lr => query_pair_proximity_docids ctxEx lr.1 lr.2 1)
          then ∅
          else interFold ((adjacent [qHello, qWorld]).map
            (fun lr => query_pair_proximity_docids ctxEx lr.1 lr.2 1))) :=
  consecutive_leaves_spec ctxEx qHello qWorld [qHello, qWorld] (by decide)

theorem resolve_and_eq (ctx : Context) (ops : List Operation)
    (f : Operation → Finset ℕ)
    (hall : ∀ op ∈ ops, resolve_operation ctx op = .ok (f op))
    (hne : ops ≠ []) :
    resolve_operation ctx (.And ops) = .ok (interFold (ops.map f)) := by
  have h1 : resolveList ctx ops = .ok (ops.map f) := resolveList_eq_map ctx ops f hall
  have h2 : resolve_operation ctx (.And ops) =
      .ok (interFold (List.insertionSort
        (fun a b : Finset ℕ => a.card ≤ b.card) (ops.map f))) := by
    simp [resolve_operation, h1, Bind.bind, Except.bind]
  rw [h2, interFold_perm (List.perm_insertionSort _ (ops.map f))]

/-- C3: resolving `And(ops)` over a non-empty children list whose members
all resolve returns exactly the intersection of the children's
resolutions; the result is therefore independent of the order of the
children (in particular `And [a, b]` and `And [b, a]` resolve equally),
and is empty whenever some child resolves to the empty set. -/
theorem and_intersection_spec (ctx : Context) (ops ops2 : List Operation)
    (f : Operation → Finset ℕ)
    (hall : ∀ op ∈ ops, resolve_operation ctx op = .ok (f op))
    (hne : ops ≠ []) (hperm : ops.Perm ops2) :
    resolve_operation ctx (.And ops) = .ok (interFold (ops.map f))
  ∧ resolve_operation ctx (.And ops2) = resolve_operation ctx (.And ops)
  ∧ ((∃ op ∈ ops, f op = ∅) → resolve_operation ctx (.And ops) = .ok ∅) := by
  have hall2 : ∀ op ∈ ops2, resolve_operation ctx op = .ok (f op) :=
    fun op hop => hall op (hperm.mem_iff.mpr hop)
  have hne2 : ops2 ≠ [] := by
    intro he
    rw [he] at hperm
    exact hne hperm.eq_nil
  have h1 := resolve_and_eq ctx ops f hall hne
  have h2 := resolve_and_eq ctx ops2 f hall2 hne2
  refine ⟨h1, ?_, ?_⟩
  · rw [h1, h2, interFold_perm ((hperm.map f).symm)]
  · rintro ⟨op, hop, hf⟩
    rw [h1]
    have hmapne : ops.map f ≠ [] := by
      intro he
      exact hne (List.map_eq_nil_iff.mp he)
    have : interFold (ops.map f) = ∅ := by
      ext x
      rw [mem_interFold x _ hmapne]
      simp only [Finset.not_mem_empty, iff_false, not_forall]
      exact ⟨∅, by rw [← hf]; exact List.mem_map_of_mem f hop, by simp⟩
    rw [this]

/-- Witness for `and_intersection_spec` on `And [qHello, qWorld]` of the
concrete fixture, permuted to `And [qWorld, qHello]`. -/
theorem and_intersection_spec_witness :
    resolve_operation ctxEx (.And [.Query qHello, .Query qWorld]) =
      .ok (interFold ([Operation.Query qHello, Operation.Query qWorld].map
        (fun op => match op with
          | .Query q => query_docids ctxEx q
          | _ => ∅)))
  ∧ resolve_operation ctxEx (.And [.Query qWorld, .Query qHello]) =
      resolve_operation ctxEx (.And [.Query qHello, .Query qWorld])
  ∧ ((∃ op ∈ [Operation.Query qHello, Operation.Query qWorld],
        (match op with
          | .Query q => query_docids ctxEx q
          | _ => (∅ : Finset ℕ)) = ∅) →
      resolve_operation ctxEx (.And [.Query qHello, .Query qWorld]) = .ok ∅) :=
  and_intersection_spec ctxEx [.Query qHello, .Query qWorld]
    [.Query qWorld, .Query qHello]
    (fun op => match op with
      | .Query q => query_docids ctxEx q
      | _ => ∅)
    (by
      intro op hop
      simp only [List.mem_cons, List.not_mem_nil, or_false] at hop
      rcases hop with rfl | rfl <;> rfl)
    (by simp)
    (List.Perm.swap _ _ _)

theorem resolve_or_eq (ctx : Context) (d : Bool) (ops : List Operation)
    (f : Operation → Finset ℕ)
    (hall : ∀ op ∈ ops, resolve_operation ctx op = .ok (f op)) :
    resolve_operation ctx (.Or d ops) =
      .ok (ops.foldl (fun s op => s ∪ f op) ∅) := by
  have h1 := orList_eq ctx ops f hall ∅
  simpa [resolve_operation] using h1

/-- C4: resolving `Or(flag, ops)` over a children list whose members all
resolve returns exactly the union of the children's resolutions for every
dedup flag; the resolved bitmap is invariant under permutation and under
re-association of the children, and `Or` of an empty children list
resolves to the empty bitmap. -/
theorem or_union_spec (ctx : Context) (d1 d2 d3 d4 d5 : Bool)
    (ops ops2 ops3 ops4 : List Operation) (f : Operation → Finset ℕ)
    (hall : ∀ op ∈ ops, resolve_operation ctx op = .ok (f op))
    (hperm : ops.Perm ops2)
    (hall34 : ∀ op ∈ ops3 ++ ops4, resolve_operation ctx op = .ok (f op)) :
    resolve_operation ctx (.Or d1 ops) =
      .ok (ops.foldl (fun s op => s ∪ f op) ∅)
  ∧ resolve_operation ctx (.Or d2 ops2) = resolve_operation ctx (.Or d1 ops)
  ∧ resolve_operation ctx (.Or d3 [.Or d4 ops3, .Or d5 ops4]) =
      resolve_operation ctx (.Or d1 (ops3 ++ ops4))
  ∧ resolve_operation ctx (.Or d1 ([] : List Operation)) = .ok ∅ := by
  have hall2 : ∀ op ∈ ops2, resolve_operation ctx op = .ok (f op) :=
    fun op hop => hall op (hperm.mem_iff.mpr hop)
  have hall3 : ∀ op ∈ ops3, resolve_operation ctx op = .ok (f op) :=
    fun op hop => hall34 op (by simp [hop])
  have hall4 : ∀ op ∈ ops4, resolve_operation ctx op = .ok (f op) :=
    fun op hop => hall34 op (by simp [hop])
  have h1 := resolve_or_eq ctx d1 ops f hall
  have h2 := resolve_or_eq ctx d2 ops2 f hall2
  have h3 := resolve_or_eq ctx d4 ops3 f hall3
  have h4 := resolve_or_eq ctx d5 ops4 f hall4
  have h34 := resolve_or_eq ctx d1 (ops3 ++ ops4) f hall34
  refine ⟨h1, ?_, ?_, rfl⟩
  · rw [h1, h2]
    congr 1
    ext x
    rw [mem_foldl_union_map f x ops2 ∅, mem_foldl_union_map f x ops ∅]
    constructor
    · rintro (h | ⟨a, ha, hx⟩)
      · exact Or.inl h
      · exact Or.inr ⟨a, hperm.mem_iff.mpr ha, hx⟩
    · rintro (h | ⟨a, ha, hx⟩)
      · exact Or.inl h
      · exact Or.inr ⟨a, hperm.mem_iff.mp ha, hx⟩
  · have hpair : ∀ op ∈ [Operation.Or d4 ops3, Operation.Or d5 ops4],
        resolve_operation ctx op = .ok ((fun op => match op with
          | .Or _ l => l.foldl (fun s o => s ∪ f o) ∅
          | _ => ∅) op) := by
      intro op hop
      simp only [List.mem_cons, List.not_mem_nil, or_false] at hop
      rcases hop with rfl | rfl
      · exact h3
      · exact h4
    have hL := resolve_or_eq ctx d3 [.Or d4 ops3, .Or d5 ops4]
      (fun op => match op with
        | .Or _ l => l.foldl (fun s o => s ∪ f o) ∅
        | _ => ∅) hpair
    rw [hL, h34]
    congr 1
    ext x
    simp only [List.foldl_cons, List.foldl_nil]
    rw [mem_foldl_union_map f x (ops3 ++ ops4) ∅]
    simp only [Finset.mem_union, Finset.not_mem_empty, false_or, List.mem_append]
    rw [mem_foldl_union_map f x ops3 ∅, mem_foldl_union_map f x ops4 ∅]
    simp only [Finset.not_mem_empty, false_or]
    constructor
    · rintro (⟨a, ha, hx⟩ | ⟨a, ha, hx⟩)
      · exact ⟨a, Or.inl ha, hx⟩
      · exact ⟨a, Or.inr ha, hx⟩
    · rintro ⟨a, ha | ha, hx⟩
      · exact Or.inl ⟨a, ha, hx⟩
      · exact Or.inr ⟨a, ha, hx⟩

/-- Witness for `or_union_spec` on `Or` nodes over the leaves `qHello`
and `qWorld` of the concrete fixture. -/
theorem or_union_spec_witness :
    resolve_operation ctxEx (.Or true [.Query qHello, .Query qWorld]) =
      .ok ([Operation.Query qHello, Operation.Query qWorld].foldl
        (fun s op => s ∪ (match op with
          | .Query q => query_docids ctxEx q
          | _ => ∅)) ∅)
  ∧ resolve_operation ctxEx (.Or false [.Query qWorld, .Query qHello]) =
      resolve_operation ctxEx (.Or true [.Query qHello, .Query qWorld])
  ∧ resolve_operation ctxEx
        (.Or false [.Or true [.Query qHello], .Or true [.Query qWorld]]) =
      resolve_operation ctxEx (.Or true ([.Query qHello] ++ [.Query qWorld]))
  ∧ resolve_operation ctxEx (.Or true ([] : List Operation)) = .ok ∅ :=
  or_union_spec ctxEx true false false true true
    [.Query qHello, .Query qWorld] [.Query qWorld, .Query qHello]
    [.Query qHello] [.Query qWorld]
    (fun op => match op with
      | .Query q => query_docids ctxEx q
      | _ => ∅)
    (by
      intro op hop
      simp only [List.mem_cons, List.not_mem_nil, or_false] at hop
      rcases hop with rfl | rfl <;> rfl)
    (List.Perm.swap _ _ _)
    (by
      intro op hop
      simp only [List.cons_append, List.nil_append, List.mem_cons,
        List.not_mem_nil, or_false] at hop
      rcases hop with rfl | rfl <;> rfl)

theorem buildStep_unrecognized (qt : Option Operation) (cand : Option (Finset ℕ))
    (u : Name) (hu : recognized u = none) (acc : Option CriterionStack) :
    buildStep qt cand acc u = acc := by
  cases acc <;> simp [buildStep, hu]

theorem foldl_unrecognized_none (qt : Option Operation) (cand : Option (Finset ℕ))
    (us : List Name) (hus : ∀ n ∈ us, recognized n = none) :
    us.foldl (buildStep qt cand) none = none := by
  induction us with
  | nil => rfl
  | cons u us ih =>
    rw [List.foldl_cons, buildStep_unrecognized qt cand u (hus u (by simp))]
    exact ih (fun n hn => hus n (by simp [hn]))

/-- C8: in the name loop of `CriteriaBuilder::build`, an unrecognized
name anywhere in the configured list contributes nothing — skipped in
initial position, passing the father through untouched in wrapping
position — so deleting it leaves the built stack unchanged; and after any
run of unrecognized names, the first recognized name becomes the initial
criterion, seeded with the query tree and the candidate pool. -/
theorem build_pipeline_spec (qt : Option Operation) (cand : Option (Finset ℕ))
    (ns1 ns2 rest us : List Name) (u r : Name) (c : Crit)
    (hu : recognized u = none)
    (hus : ∀ n ∈ us, recognized n = none)
    (hr : recognized r = some c) :
    buildCriteria (ns1 ++ u :: ns2) qt cand = buildCriteria (ns1 ++ ns2) qt cand
  ∧ buildCriteria (us ++ r :: rest) qt cand =
      rest.foldl (buildStep qt cand) (some (.initial c qt cand)) := by
  constructor
  · show (ns1 ++ u :: ns2).foldl (buildStep qt cand) none =
      (ns1 ++ ns2).foldl (buildStep qt cand) none
    rw [List.foldl_append, List.foldl_append, List.foldl_cons,
      buildStep_unrecognized qt cand u hu]
  · show (us ++ r :: rest).foldl (buildStep qt cand) none = _
    rw [List.foldl_append, foldl_unrecognized_none qt cand us hus,
      List.foldl_cons]
    have : buildStep qt cand none r = some (.initial c qt cand) := by
      simp [buildStep, hr]
    rw [this]

/-- Witness for `build_pipeline_spec`: the unrecognized name
`Other "attribute"` is dropped from `[Typo, Other "attribute", Words]`,
and after the initial run `[Other "attribute"]` the recognized
`Proximity` becomes the initial criterion carrying the seed. -/
theorem build_pipeline_spec_witness :
    buildCriteria [.Typo, .Other "attribute", .Words]
        (some (.Query qHello)) (some {1, 2}) =
      buildCriteria [.Typo, .Words] (some (.Query qHello)) (some {1, 2})
  ∧ buildCriteria [.Other "attribute", .Proximity, .Typo]
        (some (.Query qHello)) (some {1, 2}) =
      [Name.Typo].foldl (buildStep (some (.Query qHello)) (some {1, 2}))
        (some (.initial .proximity (some (.Query qHello)) (some {1, 2}))) :=
  build_pipeline_spec (some (.Query qHello)) (some {1, 2})
    [.Typo] [.Words] [.Typo] [.Other "attribute"] (.Other "attribute")
    .Proximity .proximity rfl
    (by
      intro n hn
      simp only [List.mem_cons, List.not_mem_nil, or_false] at hn
      rw [hn]
      rfl)
    rfl

namespace StrStrU8Codec

theorem findIdx_zero_sep (s1 s2 : List Nat) (h0 : 0 ∉ s1) :
    ∀ i, List.findIdx? (fun b => b == 0) (s1 ++ 0 :: s2) i =
      some (i + s1.length) := by
  induction s1 with
  | nil =>
    intro i
    simp [List.findIdx?_cons]
  | cons a s1 ih =>
    intro i
    have ha : (a == 0) = false := by
      simp only [beq_eq_false_iff_ne, ne_eq]
      intro e
      exact h0 (by simp [e])
    rw [List.cons_append, List.findIdx?_cons, ha]
    simp only [Bool.false_eq_true, if_false]
    rw [ih (fun hm => h0 (List.mem_cons_of_mem a hm)) (i + 1)]
    congr 1
    simp only [List.length_cons]
    omega

/-- C9: `StrStrU8Codec::bytes_encode` produces exactly the bytes of `s1`,
a single `0x00`, the bytes of `s2`, then the single byte `n`; and for
every triple whose first string contains no `0x00` byte, decoding the
encoding returns the triple unchanged. -/
theorem strstru8_encode_roundtrip (s1 s2 : List Nat) (n : Nat)
    (h1 : isValidUtf8 s1 = true) (h2 : isValidUtf8 s2 = true)
    (h0 : 0 ∉ s1) (hn : n ≤ 255) :
    bytes_encode s1 s2 n = some (s1 ++ 0 :: (s2 ++ [n]))
  ∧ bytes_decode (s1 ++ 0 :: (s2 ++ [n])) = some (s1, s2, n) := by
  constructor
  · simp [bytes_encode, List.concat_eq_append, List.append_assoc]
  · have hshape : s1 ++ 0 :: (s2 ++ [n]) = (s1 ++ 0 :: s2) ++ [n] := by
      simp [List.append_assoc]
    rw [hshape]
    unfold bytes_decode
    rw [List.getLast?_concat, List.dropLast_concat]
    simp only [Option.bind_eq_bind, Option.some_bind]
    rw [findIdx_zero_sep s1 s2 h0 0]
    simp only [Option.some_bind, Nat.zero_add]
    rw [List.take_left, List.drop_left]
    simp only [List.drop_one, List.tail_cons]
    simp [fromUtf8, h1, h2]

/-- Witness for `strstru8_encode_roundtrip` on the concrete triple
`("hi", "a", 7)` (bytes `[104, 105]`, `[97]`). -/
theorem strstru8_encode_roundtrip_witness :
    bytes_encode [104, 105] [97] 7 =
      some ([104, 105] ++ 0 :: ([97] ++ [7]))
  ∧ bytes_decode ([104, 105] ++ 0 :: ([97] ++ [7])) =
      some ([104, 105], [97], 7) :=
  strstru8_encode_roundtrip [104, 105] [97] 7 (by decide) (by decide)
    (by decide) (by decide)

end StrStrU8Codec

end Milli
